import Mathlib

/-
A shallow embedding of the sql-migrator migration engine.

Source files embedded:
- app/app.go, package app: parseFileName, processMigrationFile,
  mergeMigrations, getMigrations, runMigrations (registration loop).
- app/app.go, package processes: Migrator.Create, Migrator.Up,
  Migrator.Down, Migrator.Redo, Migrator.DBVersion, executeMigration,
  upMigration, downMigration.
- storage/mock_storage.go: MockSQLStorage.InsertMigration (upsert by
  version and name, first match updated in place, otherwise append) and
  MockSQLStorage.SelectLastMigrationByStatus (scan from the end, which
  returns the last record in insertion order with the given status).

The storage package itself (the Migration struct, status constants,
the ErrMigrationNotFound sentinel and the Postgres adapter) is not in
the sources; where its behavior is needed it is modelled from the spec
(section 4.1, persistence contract) and from how the mock and the engine
use it.  Statement execution and Go-migration outcomes are supplied by
an environment of oracles, since only their success or failure is
observable to the engine.

Side effects are made explicit: every engine operation returns its
result, the updated persisted history, and a trace of storage events
(lock, unlock, statement execution, record writes).  A Go slice index
out of range is modelled as an indexPanic outcome; the deferred Unlock
in Up and Down still runs while a panic unwinds, so the wrappers append
the unlock event on that path too.
-/

/-- Modelled from the spec (section 4.3) and the engine sources: the
persisted status strings.  The literal "success" appears in
Migrator.Create in app.go; the remaining constants live in the missing
storage package, so only their distinctness matters here. -/
def StatusProcess : String := "process"

/-- Status written when an up migration completes. -/
def StatusSuccess : String := "success"

/-- Status written before a down migration executes. -/
def StatusCancellation : String := "cancellation"

/-- Status written when a down migration completes. -/
def StatusCancel : String := "cancel"

/-- Status written when execution of either direction fails. -/
def StatusError : String := "error"

/-- A Go migration is the closure built in processMigrationFile: it
shells out to run the file at the stored directory and file name. -/
structure GoAction where
  dir : String
  file : String
deriving DecidableEq, Repr

/-- storage.Migration as used by the engine: status, version, name, the
up and down SQL bodies, and the optional Go actions. -/
structure Migration where
  status : String := ""
  version : Int := 0
  name : String := ""
  up : String := ""
  down : String := ""
  upGo : Option GoAction := none
  downGo : Option GoAction := none
deriving DecidableEq, Repr

instance : Inhabited Migration := ⟨{}⟩

/-- A persisted migration record: the durable (version, name, status)
triple the engine writes through InsertMigration. -/
structure Rec where
  version : Int
  name : String
  status : String
deriving DecidableEq, Repr

instance : Inhabited Rec := ⟨⟨0, "", ""⟩⟩

/-- Environment of oracles: whether acquiring the store lock succeeds,
and whether a given SQL body or Go action executes successfully. -/
structure Env where
  lockOk : Bool
  migrateOk : String → Bool
  goOk : GoAction → Bool

/-- Observable storage events of one engine run. -/
inductive Event where
  | lock
  | unlock
  | execSql (s : String)
  | execGo (a : GoAction)
  | insert (r : Rec)
deriving DecidableEq, Repr

def Event.isLockEvent : Event → Bool
  | .lock => true
  | .unlock => true
  | _ => false

def Event.isWrite : Event → Bool
  | .insert _ => true
  | _ => false

def Event.isExec : Event → Bool
  | .execSql _ => true
  | .execGo _ => true
  | _ => false

/-- Failure outcomes of an engine call.  indexPanic stands for the Go
runtime panic raised by an out-of-range slice index. -/
inductive RunErr where
  | lockErr
  | unexpectedVersion
  | migrationUp
  | migrationDown
  | migrationRedo
  | indexPanic
deriving DecidableEq, Repr

instance : DecidableEq (Except RunErr Unit) := fun a b =>
  match a, b with
  | .ok (), .ok () => isTrue rfl
  | .error x, .error y =>
      if h : x = y then isTrue (by rw [h]) else isFalse (by intro hc; cases hc; exact h rfl)
  | .ok (), .error _ => isFalse (by intro hc; cases hc)
  | .error _, .ok () => isFalse (by intro hc; cases hc)

/-- Result of one engine call: outcome, updated history, event trace. -/
structure RunOut where
  res : Except RunErr Unit
  hist : List Rec
  tr : List Event
deriving DecidableEq, Repr

/-- MockSQLStorage.InsertMigration: walk the stored records in order;
the first record with the same version and name is updated in place,
otherwise the record is appended at the end.  It never fails. -/
def insertRec : List Rec → Rec → List Rec
  | [], r => [r]
  | x :: xs, r =>
      if x.version = r.version ∧ x.name = r.name then r :: xs
      else x :: insertRec xs r

/-- MockSQLStorage.SelectLastMigrationByStatus: scanning from the end
for the first record with the given status returns the last record in
insertion order with that status.  none models the not-found sentinel
(spec section 4.1), which the engine treats as "no history". -/
def selectLastByStatus : List Rec → String → Option Rec
  | [], _ => none
  | r :: rest, st =>
      match selectLastByStatus rest st with
      | some x => some x
      | none => if r.status = st then some r else none

/-- The side-effecting action of executeMigration: the Go function is
preferred when present, otherwise a non-empty SQL body is executed, and
an empty migration performs no action and trivially succeeds. -/
def execAction (env : Env) (sql : String) (goFunc : Option GoAction) :
    Bool × List Event :=
  match goFunc with
  | some g => (env.goOk g, [.execGo g])
  | none => if sql = "" then (true, []) else (env.migrateOk sql, [.execSql sql])

/-- executeMigration (app.go, package processes): write the transient
status, run the action, then write the terminal status.  InsertMigration
never fails in the provided storage, and in the failure branch the Go
source returns the freshly declared insert error (the execution error is
shadowed), so both branches return ok here — exactly as the Go code does
whenever the error-record insert succeeds. -/
def executeMigration (env : Env) (h : List Rec) (m : Migration) (sql : String)
    (goFunc : Option GoAction) (processStatus successStatus errorStatus : String) :
    RunOut :=
  let r1 : Rec := ⟨m.version, m.name, processStatus⟩
  let h1 := insertRec h r1
  let act := execAction env sql goFunc
  if act.1 then
    let r2 : Rec := ⟨m.version, m.name, successStatus⟩
    ⟨.ok (), insertRec h1 r2, .insert r1 :: act.2 ++ [.insert r2]⟩
  else
    let r2 : Rec := ⟨m.version, m.name, errorStatus⟩
    ⟨.ok (), insertRec h1 r2, .insert r1 :: act.2 ++ [.insert r2]⟩

/-- Migrator.upMigration. -/
def upMigration (env : Env) (h : List Rec) (m : Migration) : RunOut :=
  executeMigration env h m m.up m.upGo StatusProcess StatusSuccess StatusError

/-- Migrator.downMigration. -/
def downMigration (env : Env) (h : List Rec) (m : Migration) : RunOut :=
  executeMigration env h m m.down m.downGo StatusCancellation StatusCancel StatusError

/-- The loop in Migrator.Up: for i := lastVersion; i < len(migrations);
i++ run upMigration, returning ErrMigrationUp on the first failing step.
The body only reads the entry at the current index and the registry is
not modified while looping, so the loop is iterated over the registry
suffix that starts at lastVersion. -/
def upFrom (env : Env) : List Rec → List Migration → RunOut
  | h, [] => ⟨.ok (), h, []⟩
  | h, m :: rest =>
      let step := upMigration env h m
      match step.res with
      | .error _ => ⟨.error .migrationUp, step.hist, step.tr⟩
      | .ok _ =>
          let restOut := upFrom env step.hist rest
          ⟨restOut.res, restOut.hist, step.tr ++ restOut.tr⟩

/-- Body of Migrator.Up between Lock and the deferred Unlock: read the
last successful version (0 when there is no history), reject drift when
lastVersion - 1 exceeds the registry size, then run the loop.  A
negative stored version would be used directly as a slice index by the
first loop iteration and panic. -/
def upBody (env : Env) (ms : List Migration) (h : List Rec) : RunOut :=
  match selectLastByStatus h StatusSuccess with
  | some r =>
      if r.version - 1 > (ms.length : Int) then ⟨.error .unexpectedVersion, h, []⟩
      else if r.version < 0 then ⟨.error .indexPanic, h, []⟩
      else upFrom env h (ms.drop r.version.toNat)
  | none => upFrom env h ms

/-- Migrator.Up: acquire the lock, run the body, and release the lock on
every exit path (the deferred Unlock also runs while a panic unwinds). -/
def Migrator.Up (env : Env) (ms : List Migration) (h : List Rec) : RunOut :=
  if env.lockOk then
    let body := upBody env ms h
    ⟨body.res, body.hist, .lock :: body.tr ++ [.unlock]⟩
  else ⟨.error .lockErr, h, []⟩

/-- Body of Migrator.Down between Lock and the deferred Unlock: no
successful migration means a no-op success; a stored version above the
registry size is a drift error; otherwise exactly the one migration at
index version - 1 is rolled back (an out-of-range index panics). -/
def downBody (env : Env) (ms : List Migration) (h : List Rec) : RunOut :=
  match selectLastByStatus h StatusSuccess with
  | none => ⟨.ok (), h, []⟩
  | some r =>
      if r.version > (ms.length : Int) then ⟨.error .unexpectedVersion, h, []⟩
      else if hidx : 0 ≤ r.version - 1 ∧ (r.version - 1).toNat < ms.length then
        let step := downMigration env h (ms.get ⟨(r.version - 1).toNat, hidx.2⟩)
        match step.res with
        | .error _ => ⟨.error .migrationDown, step.hist, step.tr⟩
        | .ok _ => ⟨.ok (), step.hist, step.tr⟩
      else ⟨.error .indexPanic, h, []⟩

/-- Migrator.Down with the same lock wrapper as Migrator.Up. -/
def Migrator.Down (env : Env) (ms : List Migration) (h : List Rec) : RunOut :=
  if env.lockOk then
    let body := downBody env ms h
    ⟨body.res, body.hist, .lock :: body.tr ++ [.unlock]⟩
  else ⟨.error .lockErr, h, []⟩

/-- The re-apply phase of Migrator.Redo: m.migrations[lastVersion] is
indexed with the post-Down last successful version itself (not version
minus one), panicking when out of range, then run as a single up
migration with failures wrapped as ErrMigrationRedo. -/
def redoUp (env : Env) (ms : List Migration) (h : List Rec) (lastVersion : Int) :
    RunOut :=
  if hidx : 0 ≤ lastVersion ∧ lastVersion.toNat < ms.length then
    let step := upMigration env h (ms.get ⟨lastVersion.toNat, hidx.2⟩)
    match step.res with
    | .error _ => ⟨.error .migrationRedo, step.hist, step.tr⟩
    | .ok _ => ⟨.ok (), step.hist, step.tr⟩
  else ⟨.error .indexPanic, h, []⟩

/-- Migrator.Redo: run Down (which locks and unlocks internally), then —
without re-acquiring the lock — read the last successful version from
the updated history, apply the same drift guard as Up, and run the
single re-apply step. -/
def Migrator.Redo (env : Env) (ms : List Migration) (h : List Rec) : RunOut :=
  let d := Migrator.Down env ms h
  match d.res with
  | .error e => ⟨.error e, d.hist, d.tr⟩
  | .ok _ =>
      let after :=
        match selectLastByStatus d.hist StatusSuccess with
        | some r =>
            if r.version - 1 > (ms.length : Int) then
              (⟨.error .unexpectedVersion, d.hist, []⟩ : RunOut)
            else redoUp env ms d.hist r.version
        | none => redoUp env ms d.hist 0
      ⟨after.res, after.hist, d.tr ++ after.tr⟩

/-- Migrator.DBVersion: the version of the last successful record, 0
when there is none. -/
def Migrator.DBVersion (h : List Rec) : Int :=
  match selectLastByStatus h StatusSuccess with
  | some r => r.version
  | none => 0

/-- The decimal-digit prefix regGetVersion matches. -/
def leadingDigits (s : String) : List Char := s.toList.takeWhile Char.isDigit

/-- Value of a digit string, as strconv.Atoi computes it. -/
def digitsToNat (cs : List Char) : Nat :=
  cs.foldl (fun acc c => acc * 10 + (c.toNat - 48)) 0

/-- A discovered script fragment: a file name plus its raw contents. -/
structure Fragment where
  fileName : String
  content : String
deriving DecidableEq, Repr

/-- strings.Split on the underscore separator, empty segments kept. -/
def splitUnderscore : List Char → List (List Char)
  | [] => [[]]
  | c :: cs =>
      let rest := splitUnderscore cs
      if c = '_' then [] :: rest
      else
        match rest with
        | [] => [[c]]
        | seg :: segs => (c :: seg) :: segs

/-- strings.Join with the underscore separator. -/
def joinUnderscore : List (List Char) → List Char
  | [] => []
  | [s] => s
  | s :: rest => s ++ '_' :: joinUnderscore rest

/-- parseFileName (app.go): the file name must start with a decimal
version and split on underscores into at least three parts; the name is
the middle parts rejoined with underscores. -/
def parseFileName (fileName : String) : Except Unit (Int × String) :=
  let ds := leadingDigits fileName
  if ds = [] then .error ()
  else
    let parts := splitUnderscore fileName.toList
    if parts.length < 3 then .error ()
    else .ok ((digitsToNat ds : Int), String.mk (joinUnderscore ((parts.drop 1).dropLast)))

/-- The anchored regular expressions of app.go demand at least one
character before the direction suffix. -/
def matchesSuffix (fileName suf : String) : Bool :=
  List.isPrefixOf suf.toList.reverse fileName.toList.reverse &&
    suf.length < fileName.length

/-- processMigrationFile (app.go): an up or down SQL fragment carries
its file contents as the body; a Go fragment carries the closure that
runs the file; anything else is an invalid-name error. -/
def processMigrationFile (dir : String) (f : Fragment) (version : Int)
    (migName : String) : Except Unit Migration :=
  if matchesSuffix f.fileName "_up.sql" then
    .ok { version := version, name := migName, up := f.content }
  else if matchesSuffix f.fileName "_down.sql" then
    .ok { version := version, name := migName, down := f.content }
  else if matchesSuffix f.fileName "_up.go" then
    .ok { version := version, name := migName, upGo := some ⟨dir, f.fileName⟩ }
  else if matchesSuffix f.fileName "_down.go" then
    .ok { version := version, name := migName, downGo := some ⟨dir, f.fileName⟩ }
  else .error ()

/-- mergeMigrations (app.go): copy only the non-empty fields of the
later fragment onto the existing migration. -/
def mergeMigrations (existing : Migration) (new : Migration) : Migration :=
  { existing with
    up := if new.up ≠ "" then new.up else existing.up
    down := if new.down ≠ "" then new.down else existing.down
    upGo := if new.upGo ≠ none then new.upGo else existing.upGo
    downGo := if new.downGo ≠ none then new.downGo else existing.downGo }

/-- Merge a freshly parsed migration into the version map at its key. -/
def upsertVersion : List (Int × Migration) → Int → Migration → List (Int × Migration)
  | [], v, m => [(v, m)]
  | (k, e) :: rest, v, m =>
      if k = v then (k, mergeMigrations e m) :: rest
      else (k, e) :: upsertVersion rest v m

/-- Loop body of getMigrations over the directory listing, with the Go
map of versions represented as an association list.  Construction is
all-or-nothing: any unparsable fragment fails the whole build. -/
def getMigrationsAux (dir : String) :
    List Fragment → List (Int × Migration) → Except Unit (List (Int × Migration))
  | [], acc => .ok acc
  | f :: fs, acc =>
      match parseFileName f.fileName with
      | .error _ => .error ()
      | .ok (version, migName) =>
          match processMigrationFile dir f version migName with
          | .error _ => .error ()
          | .ok migration =>
              if (acc.find? (fun p => p.1 = version)).isSome then
                getMigrationsAux dir fs (upsertVersion acc version migration)
              else
                getMigrationsAux dir fs (acc ++ [(version, migration)])

/-- getMigrations (app.go): fold the listed fragments into the version
map.  The mapping itself is a pure function of the listing. -/
def getMigrations (dir : String) (files : List Fragment) :
    Except Unit (List (Int × Migration)) :=
  getMigrationsAux dir files []

/-- Migrator.Create (app.go, package processes): append a migration
whose version is the current registry length plus one; the parsed
version of the source fragment is not passed in and plays no part. -/
def Migrator.Create (ms : List Migration) (name up down : String)
    (upGo downGo : Option GoAction) : List Migration :=
  ms ++ [{ status := StatusSuccess, version := (ms.length : Int) + 1,
           name := name, up := up, down := down, upGo := upGo, downGo := downGo }]

/-- The registration loop of Application.runMigrations: hand each map
entry to Migrator.Create in the order the Go map range produces them.
Go map iteration order is unspecified, so a run corresponds to some
permutation of the map entries. -/
def registerMigrations (order : List Migration) : List Migration :=
  order.foldl (fun acc m => Migrator.Create acc m.name m.up m.down m.upGo m.downGo) []

/-- Scan a trace tracking whether the lock is held; true when every
execution event happens while the lock is held. -/
def execsLockedFrom : List Event → Bool → Bool
  | [], _ => true
  | .lock :: es, _ => execsLockedFrom es true
  | .unlock :: es, _ => execsLockedFrom es false
  | .execSql _ :: es, held => held && execsLockedFrom es held
  | .execGo _ :: es, held => held && execsLockedFrom es held
  | .insert _ :: es, held => execsLockedFrom es held

/-- Every migration body in the trace executes under the lock. -/
def execsUnderLock (tr : List Event) : Bool := execsLockedFrom tr false

/-- A trace with no lock or unlock events. -/
def noLockEvents (tr : List Event) : Bool := tr.all fun e => !e.isLockEvent

/-- Two fragments supply disjoint fields when no up or down body (text
or Go action) is supplied by both. -/
def disjointFields (a b : Migration) : Prop :=
  (a.up = "" ∨ b.up = "") ∧ (a.down = "" ∨ b.down = "") ∧
    (a.upGo = none ∨ b.upGo = none) ∧ (a.downGo = none ∨ b.downGo = none)

/-- The registry shape Migrator.Create produces: the entry at index i
carries version i + 1. -/
def canonicalRegistry (ms : List Migration) : Prop :=
  ∀ i, i < ms.length → (ms.getD i default).version = (i : Int) + 1

/-- The history shape the engine itself persists against a registry:
records appear in version order 1, 2, ... and record i names the
registry entry at index i. -/
def canonicalHist (ms : List Migration) (h : List Rec) : Prop :=
  h.length ≤ ms.length ∧
    ∀ i, i < h.length →
      (h.getD i default).version = (i : Int) + 1 ∧
        (h.getD i default).name = (ms.getD i default).name

/-- Every up action of the registry succeeds in this environment. -/
def allUpOk (env : Env) (ms : List Migration) : Prop :=
  ∀ m ∈ ms, (execAction env m.up m.upGo).1 = true

/-- Environment in which every storage operation and action succeeds. -/
def envAllOk : Env := ⟨true, fun _ => true, fun _ => true⟩

/-- Environment in which exactly the SQL body "bad" fails. -/
def envBadSql : Env := ⟨true, fun s => !(s == "bad"), fun _ => true⟩

/-- Two-migration registry whose first up script fails in envBadSql. -/
def msFail1 : List Migration :=
  [{ version := 1, name := "a", up := "bad" }, { version := 2, name := "b", up := "good" }]

/-- One-migration registry used by the drift-guard scenarios. -/
def msOne : List Migration := [{ version := 1, name := "a", up := "u", down := "d" }]

/-- History whose last successful version is 2 against a registry of
size 1 (drift by exactly one). -/
def histDrift2 : List Rec := [⟨2, "x", StatusSuccess⟩]

/-- History whose last successful version is 3 against a registry of
size 1 (drift by two). -/
def histDrift3 : List Rec := [⟨3, "x", StatusSuccess⟩]

/-- History with version 1 successfully applied. -/
def histOne : List Rec := [⟨1, "a", StatusSuccess⟩]

/-- Three-migration registry for the redo scenario. -/
def msThree : List Migration :=
  [{ version := 1, name := "a", up := "ua", down := "da" },
   { version := 2, name := "b", up := "ub", down := "db" },
   { version := 3, name := "c", up := "uc", down := "dc" }]

/-- History in which version 2 previously failed while versions 1 and 3
succeeded, so the last successful record is version 3 but the record
before it is not a success. -/
def histGap : List Rec := [⟨1, "a", StatusSuccess⟩, ⟨2, "b", StatusError⟩, ⟨3, "c", StatusSuccess⟩]

/-- Parsed migration of fragment 1_a_up.sql with contents x. -/
def migA : Migration := { version := 1, name := "a", up := "x" }

/-- Parsed migration of fragment 2_b_up.sql with contents y. -/
def migB : Migration := { version := 2, name := "b", up := "y" }

/-- The two-fragment directory listing of the determinism scenario. -/
def fragsTwo : List Fragment := [⟨"1_a_up.sql", "x"⟩, ⟨"2_b_up.sql", "y"⟩]

/-- An up-only fragment for the merge witness. -/
def mergeUpFrag : Migration := { version := 1, name := "m", up := "u" }

/-- A down-only fragment for the merge witness. -/
def mergeDownFrag : Migration := { version := 1, name := "m", down := "d" }

/-- Both branches of executeMigration return ok: insertRec cannot fail,
and the failure branch returns the shadowed insert error. -/
theorem executeMigration_res (env : Env) (h : List Rec) (m : Migration) (sql : String)
    (g : Option GoAction) (ps ss es : String) :
    (executeMigration env h m sql g ps ss es).res = .ok () := by
  simp only [executeMigration]
  split <;> rfl

theorem upMigration_res (env : Env) (h : List Rec) (m : Migration) :
    (upMigration env h m).res = .ok () := executeMigration_res ..

theorem downMigration_res (env : Env) (h : List Rec) (m : Migration) :
    (downMigration env h m).res = .ok () := executeMigration_res ..

theorem execAction_noLock (env : Env) (sql : String) (g : Option GoAction) :
    noLockEvents (execAction env sql g).2 = true := by
  unfold execAction
  cases g with
  | some a => rfl
  | none => by_cases hs : sql = "" <;> simp [hs, noLockEvents, Event.isLockEvent]

theorem execAction_noWrite (env : Env) (sql : String) (g : Option GoAction) :
    ((execAction env sql g).2).all (fun e => !e.isWrite) = true := by
  unfold execAction
  cases g with
  | some a => rfl
  | none => by_cases hs : sql = "" <;> simp [hs, Event.isWrite]

/-- The trace of executeMigration is a transient-status write, the
events of the action, and a terminal-status write chosen by whether the
action succeeded. -/
theorem executeMigration_tr (env : Env) (h : List Rec) (m : Migration) (sql : String)
    (g : Option GoAction) (ps ss es : String) :
    (executeMigration env h m sql g ps ss es).tr =
      .insert ⟨m.version, m.name, ps⟩ :: (execAction env sql g).2 ++
        [.insert ⟨m.version, m.name, if (execAction env sql g).1 then ss else es⟩] := by
  simp only [executeMigration]
  split <;> simp_all

theorem executeMigration_noLock (env : Env) (h : List Rec) (m : Migration) (sql : String)
    (g : Option GoAction) (ps ss es : String) :
    noLockEvents (executeMigration env h m sql g ps ss es).tr = true := by
  rw [executeMigration_tr]
  have hact := execAction_noLock env sql g
  simp_all [noLockEvents, Event.isLockEvent]

theorem upFrom_noLock (env : Env) (rest : List Migration) : ∀ h : List Rec,
    noLockEvents (upFrom env h rest).tr = true := by
  induction rest with
  | nil => intro h; rfl
  | cons m rest ih =>
      intro h
      simp only [upFrom]
      rw [upMigration_res env h m]
      have hnl := executeMigration_noLock env h m m.up m.upGo StatusProcess StatusSuccess StatusError
      simp_all [noLockEvents, upMigration]
      exact ih _

theorem upBody_noLock (env : Env) (ms : List Migration) (h : List Rec) :
    noLockEvents (upBody env ms h).tr = true := by
  unfold upBody
  cases hsel : selectLastByStatus h StatusSuccess with
  | none => exact upFrom_noLock env ms h
  | some r =>
      by_cases h1 : r.version - 1 > (ms.length : Int)
      · simp [h1, noLockEvents]
      · by_cases h2 : r.version < 0
        · simp [h1, h2, noLockEvents]
        · simp only [h1, h2, if_false, if_neg]
          exact upFrom_noLock env _ h

theorem downBody_noLock (env : Env) (ms : List Migration) (h : List Rec) :
    noLockEvents (downBody env ms h).tr = true := by
  cases hsel : selectLastByStatus h StatusSuccess with
  | none => simp [downBody, hsel, noLockEvents]
  | some r =>
      simp only [downBody, hsel]
      by_cases h1 : r.version > (ms.length : Int)
      · simp [h1, noLockEvents]
      · rw [if_neg h1]
        by_cases h2 : 0 ≤ r.version - 1 ∧ (r.version - 1).toNat < ms.length
        · rw [dif_pos h2]
          rw [downMigration_res]
          exact executeMigration_noLock ..
        · rw [dif_neg h2]
          rfl

theorem redoUp_noLock (env : Env) (ms : List Migration) (h : List Rec) (v : Int) :
    noLockEvents (redoUp env ms h v).tr = true := by
  by_cases h2 : 0 ≤ v ∧ v.toNat < ms.length
  · simp only [redoUp]
    rw [dif_pos h2]
    rw [upMigration_res]
    exact executeMigration_noLock ..
  · simp only [redoUp]
    rw [dif_neg h2]
    rfl

theorem execsLockedFrom_of_noLock (tr : List Event) (htr : noLockEvents tr = true) :
    ∀ rest : List Event, execsLockedFrom (tr ++ rest) true = execsLockedFrom rest true := by
  induction tr with
  | nil => intro rest; rfl
  | cons e es ih =>
      intro rest
      cases e <;> simp_all [noLockEvents, Event.isLockEvent, execsLockedFrom]

theorem execsUnderLock_wrapped (body : List Event) (hb : noLockEvents body = true) :
    execsUnderLock (.lock :: body ++ [.unlock]) = true := by
  unfold execsUnderLock
  show execsLockedFrom (body ++ [.unlock]) true = true
  rw [execsLockedFrom_of_noLock body hb]
  rfl

theorem pick_comm {α : Type} [DecidableEq α] (z a b : α) (hd : a = z ∨ b = z) :
    (if b ≠ z then b else a) = (if a ≠ z then a else b) := by
  rcases hd with hz | hz
  · rw [hz]
    by_cases hb : b = z <;> simp [hb]
  · rw [hz]
    by_cases ha : a = z <;> simp [ha]

/-- Claim C1 (evaluation at the failing input): with an empty history
and a registry whose version-1 up script fails, Up records version 1 as
Error but then — because executeMigration returns the shadowed result of
the (successful) error-record insert — continues, executes version 2,
returns ok instead of an up-failure error, and DBVersion afterwards
reports 2 rather than 0. -/
theorem up_swallows_execution_failure :
    Migrator.Up envBadSql msFail1 [] =
      ⟨.ok (), [⟨1, "a", StatusError⟩, ⟨2, "b", StatusSuccess⟩],
        [.lock, .insert ⟨1, "a", StatusProcess⟩, .execSql "bad",
         .insert ⟨1, "a", StatusError⟩, .insert ⟨2, "b", StatusProcess⟩,
         .execSql "good", .insert ⟨2, "b", StatusSuccess⟩, .unlock]⟩ ∧
    Migrator.DBVersion (Migrator.Up envBadSql msFail1 []).hist = 2 :=
  ⟨rfl, rfl⟩

/-- Claim C2 (evaluation at the failing input): with one registered
migration and a persisted last successful version of 2, Down fails with
the version-mismatch error, but Up returns ok as a silent no-op because
its guard tests lastVersion - 1 against the registry size; only from a
last successful version of 3 does Up report the mismatch. -/
theorem up_drift_guard_off_by_one :
    Migrator.Up envAllOk msOne histDrift2 = ⟨.ok (), histDrift2, [.lock, .unlock]⟩ ∧
    Migrator.Down envAllOk msOne histDrift2 =
      ⟨.error .unexpectedVersion, histDrift2, [.lock, .unlock]⟩ ∧
    Migrator.Up envAllOk msOne histDrift3 =
      ⟨.error .unexpectedVersion, histDrift3, [.lock, .unlock]⟩ :=
  ⟨rfl, rfl, rfl⟩

/-- Claim C3: when no record has status Success, Down is a successful
no-op that touches nothing; when the last successful record exists and
its version addresses registry index i, Down performs exactly the single
down transition of that one registry entry, never a range. -/
theorem down_rolls_back_single_migration (env : Env) (ms : List Migration) (h : List Rec)
    (hl : env.lockOk = true) :
    (selectLastByStatus h StatusSuccess = none →
        Migrator.Down env ms h = ⟨.ok (), h, [.lock, .unlock]⟩) ∧
    (∀ (r : Rec) (i : Nat), i < ms.length →
        selectLastByStatus h StatusSuccess = some r → r.version = (i : Int) + 1 →
        Migrator.Down env ms h =
          ⟨.ok (), (downMigration env h (ms.getD i default)).hist,
            .lock :: (downMigration env h (ms.getD i default)).tr ++ [.unlock]⟩) := by
  constructor
  · intro hsel
    simp [Migrator.Down, hl, downBody, hsel]
  · intro r i hi hsel hv
    have hg : ¬ r.version > (ms.length : Int) := by
      rw [hv]; omega
    have hc : 0 ≤ r.version - 1 ∧ (r.version - 1).toNat < ms.length := by
      rw [hv]
      constructor
      · omega
      · simpa using hi
    have hidx : (r.version - 1).toNat = i := by rw [hv]; simp
    simp only [Migrator.Down, hl, if_true, downBody, hsel]
    rw [if_neg hg, dif_pos hc]
    have hget : ms.get ⟨(r.version - 1).toNat, hc.2⟩ = ms.getD i default := by
      rw [List.getD_eq_get ms default hi]
      congr 1
      exact Fin.ext hidx
    rw [hget, downMigration_res]

/-- Claim C3 witness: rolling back the single successful migration of a
one-entry registry runs exactly its one down transition. -/
theorem down_rolls_back_single_migration_witness :
    Migrator.Down envAllOk msOne histOne =
      ⟨.ok (), [⟨1, "a", StatusCancel⟩],
        [.lock, .insert ⟨1, "a", StatusCancellation⟩, .execSql "d",
         .insert ⟨1, "a", StatusCancel⟩, .unlock]⟩ := by
  have h := (down_rolls_back_single_migration envAllOk msOne histOne rfl).2
    ⟨1, "a", StatusSuccess⟩ 0 (by decide) rfl (by decide)
  exact h.trans rfl

/-- Claim C5, counterexample: in a Redo call the single-migration
re-apply runs after the lock has already been released by the Down
phase, so a migration body executes without the lock held — the
execSql of the up script appears after the unlock event. -/
theorem redo_up_phase_unlocked_cex :
    (Migrator.Redo envAllOk msOne histOne).tr =
      [.lock, .insert ⟨1, "a", StatusCancellation⟩, .execSql "d",
       .insert ⟨1, "a", StatusCancel⟩, .unlock, .insert ⟨1, "a", StatusProcess⟩,
       .execSql "u", .insert ⟨1, "a", StatusSuccess⟩] ∧
    execsUnderLock (Migrator.Redo envAllOk msOne histOne).tr = false :=
  ⟨rfl, rfl⟩

/-- Claim C5, amended: Up and Down hold the lock for their entire call —
their trace is either empty (lock acquisition failed, nothing executed)
or a lock event, a lock-free body, and a final unlock on every exit
path — and every migration body they run executes under the lock.  Redo
only extends its Down phase with lock-free events: its re-apply runs
after the lock has been released. -/
theorem lock_scoped_up_down_redo (env : Env) (ms : List Migration) (h : List Rec) :
    ((Migrator.Up env ms h).tr = [] ∨
      (Migrator.Up env ms h).tr = .lock :: (upBody env ms h).tr ++ [.unlock]) ∧
    ((Migrator.Down env ms h).tr = [] ∨
      (Migrator.Down env ms h).tr = .lock :: (downBody env ms h).tr ++ [.unlock]) ∧
    (∃ rest, (Migrator.Redo env ms h).tr = (Migrator.Down env ms h).tr ++ rest ∧
        noLockEvents rest = true) ∧
    execsUnderLock (Migrator.Up env ms h).tr = true ∧
    execsUnderLock (Migrator.Down env ms h).tr = true := by
  cases hl : env.lockOk with
  | false =>
      refine ⟨Or.inl ?_, Or.inl ?_, ⟨[], ?_, rfl⟩, ?_, ?_⟩ <;>
        simp [Migrator.Up, Migrator.Down, Migrator.Redo, hl, execsUnderLock, execsLockedFrom]
  | true =>
      have hup : (Migrator.Up env ms h).tr = .lock :: (upBody env ms h).tr ++ [.unlock] := by
        simp [Migrator.Up, hl]
      have hdown : (Migrator.Down env ms h).tr =
          .lock :: (downBody env ms h).tr ++ [.unlock] := by
        simp [Migrator.Down, hl]
      refine ⟨Or.inr hup, Or.inr hdown, ?_, ?_, ?_⟩
      · cases hd : (Migrator.Down env ms h).res with
        | error e =>
            refine ⟨[], ?_, rfl⟩
            simp only [Migrator.Redo, hd]
            simp
        | ok u =>
            simp only [Migrator.Redo, hd]
            cases hsel : selectLastByStatus (Migrator.Down env ms h).hist StatusSuccess with
            | none => exact ⟨_, rfl, redoUp_noLock ..⟩
            | some r =>
                by_cases hgd : r.version - 1 > (ms.length : Int)
                · refine ⟨_, rfl, ?_⟩
                  simp [hgd, noLockEvents]
                · refine ⟨_, rfl, ?_⟩
                  simp only [hgd, if_false]
                  exact redoUp_noLock ..
      · rw [hup]
        exact execsUnderLock_wrapped _ (upBody_noLock env ms h)
      · rw [hdown]
        exact execsUnderLock_wrapped _ (downBody_noLock env ms h)

/-- Claim C6: every executed migration persists exactly two status
writes around the side-effecting action — the transient status (Process
for up, Cancellation for down) before it, and a terminal status
(Success or Cancel on completion, Error on failure) after it, with no
record writes among the action events themselves. -/
theorem migration_status_write_protocol (env : Env) (h : List Rec) (m : Migration) :
    (upMigration env h m).tr =
      .insert ⟨m.version, m.name, StatusProcess⟩ :: (execAction env m.up m.upGo).2 ++
        [.insert ⟨m.version, m.name,
            if (execAction env m.up m.upGo).1 then StatusSuccess else StatusError⟩] ∧
    (downMigration env h m).tr =
      .insert ⟨m.version, m.name, StatusCancellation⟩ :: (execAction env m.down m.downGo).2 ++
        [.insert ⟨m.version, m.name,
            if (execAction env m.down m.downGo).1 then StatusCancel else StatusError⟩] ∧
    ((execAction env m.up m.upGo).2).all (fun e => !e.isWrite) = true ∧
    ((execAction env m.down m.downGo).2).all (fun e => !e.isWrite) = true :=
  ⟨executeMigration_tr .., executeMigration_tr .., execAction_noWrite ..,
    execAction_noWrite ..⟩

/-- Claim C7 (evaluation at the failing input): the version map built
from two well-formed fragments is itself a fixed mapping, but the
sequence handed to Migrator.Create depends on the Go map iteration
order: the two possible orders of the same mapping register different
migrations at versions 1 and 2, so the handoff is not deterministic. -/
theorem registry_handoff_depends_on_map_order :
    getMigrations "d" fragsTwo = .ok [(1, migA), (2, migB)] ∧
    List.Perm [migB, migA] [migA, migB] ∧
    registerMigrations [migB, migA] ≠ registerMigrations [migA, migB] :=
  ⟨rfl, List.Perm.swap migA migB [], by decide⟩

/-- Claim C9: merging two fragments of one version is commutative when
they supply disjoint fields (given the shared version, name and status
that fragments of one version carry), and in general is right-biased:
each field of the merge is the later fragment's value when that fragment
supplies it and is left unchanged — never cleared — otherwise. -/
theorem merge_commutative_disjoint_right_biased (a b : Migration)
    (hv : a.version = b.version) (hn : a.name = b.name) (hs : a.status = b.status) :
    (disjointFields a b → mergeMigrations a b = mergeMigrations b a) ∧
    (mergeMigrations a b).version = a.version ∧
    (mergeMigrations a b).name = a.name ∧
    (mergeMigrations a b).up = (if b.up ≠ "" then b.up else a.up) ∧
    (mergeMigrations a b).down = (if b.down ≠ "" then b.down else a.down) ∧
    (mergeMigrations a b).upGo = (if b.upGo ≠ none then b.upGo else a.upGo) ∧
    (mergeMigrations a b).downGo = (if b.downGo ≠ none then b.downGo else a.downGo) := by
  refine ⟨?_, rfl, rfl, rfl, rfl, rfl, rfl⟩
  intro hd
  obtain ⟨h1, h2, h3, h4⟩ := hd
  cases a
  cases b
  simp only [mergeMigrations, Migration.mk.injEq] at *
  exact ⟨hs, hv, hn, pick_comm _ _ _ h1, pick_comm _ _ _ h2, pick_comm _ _ _ h3,
    pick_comm _ _ _ h4⟩

/-- Claim C9 witness: an up-only and a down-only fragment of version 1
merge the same way in either order, keeping both supplied bodies. -/
theorem merge_commutative_disjoint_right_biased_witness :
    mergeMigrations mergeUpFrag mergeDownFrag = mergeMigrations mergeDownFrag mergeUpFrag ∧
    (mergeMigrations mergeUpFrag mergeDownFrag).up = "u" ∧
    (mergeMigrations mergeUpFrag mergeDownFrag).down = "d" := by
  have h := merge_commutative_disjoint_right_biased mergeUpFrag mergeDownFrag rfl rfl rfl
  exact ⟨h.1 ⟨Or.inr rfl, Or.inl rfl, Or.inl rfl, Or.inl rfl⟩, rfl, rfl⟩

/-- Claim C10: on an empty registry with no successful migration in the
history, Down no-ops and Redo then indexes the migration list out of
range — the run ends in the index panic, not in a graceful error or
no-op. -/
theorem redo_index_out_of_range_on_empty_registry :
    Migrator.Redo envAllOk [] [] = ⟨.error .indexPanic, [], [.lock, .unlock]⟩ :=
  rfl

theorem getD_set_self (g : List Rec) (i : Nat) (r : Rec) (hi : i < g.length) :
    (g.set i r).getD i default = r := by
  induction g generalizing i with
  | nil => simp at hi
  | cons x xs ih =>
      cases i with
      | zero => rfl
      | succ j => simpa using ih j (by simpa using hi)

theorem getD_set_ne (g : List Rec) (i j : Nat) (r : Rec) (hne : j ≠ i) :
    (g.set i r).getD j default = g.getD j default := by
  induction g generalizing i j with
  | nil => simp [List.set]
  | cons x xs ih =>
      cases i with
      | zero =>
          cases j with
          | zero => exact absurd rfl hne
          | succ k => rfl
      | succ i2 =>
          cases j with
          | zero => rfl
          | succ k => simpa using ih i2 k (fun hc => hne (by rw [hc]))

theorem set_decomp (g : List Rec) (i : Nat) (r : Rec) (hi : i < g.length) :
    g.set i r = g.take i ++ r :: g.drop (i + 1) := by
  induction g generalizing i with
  | nil => simp at hi
  | cons x xs ih =>
      cases i with
      | zero => simp
      | succ j => simpa using ih j (by simpa using hi)

theorem getD_take (g : List Rec) (i j : Nat) (hj : j < i) :
    (g.take i).getD j default = g.getD j default := by
  induction g generalizing i j with
  | nil => simp
  | cons x xs ih =>
      cases i with
      | zero => simp at hj
      | succ i2 =>
          cases j with
          | zero => rfl
          | succ k => simpa using ih i2 k (by omega)

theorem getD_drop (g : List Rec) (i : Nat) : ∀ j : Nat,
    (g.drop i).getD j default = g.getD (i + j) default := by
  induction g generalizing i with
  | nil => intro j; simp
  | cons x xs ih =>
      intro j
      cases i with
      | zero => simp
      | succ i2 => simpa [Nat.succ_add] using ih i2 j

theorem getD_append_left (xs ys : List Rec) (j : Nat) (hj : j < xs.length) :
    (xs ++ ys).getD j default = xs.getD j default := by
  induction xs generalizing j with
  | nil => simp at hj
  | cons x rest ih =>
      cases j with
      | zero => rfl
      | succ k => simpa using ih k (by simpa using hj)

theorem getD_append_last (xs : List Rec) (r : Rec) :
    (xs ++ [r]).getD xs.length default = r := by
  induction xs with
  | nil => rfl
  | cons x rest ih => simpa using ih

theorem set_append_last (g : List Rec) (r1 r2 : Rec) :
    (g ++ [r1]).set g.length r2 = g ++ [r2] := by
  induction g with
  | nil => rfl
  | cons x xs ih => simp [ih]

theorem insertRec_eq_set (r : Rec) : ∀ (g : List Rec) (i : Nat), i < g.length →
    ((g.getD i default).version = r.version ∧ (g.getD i default).name = r.name) →
    (∀ j, j < i → ¬((g.getD j default).version = r.version ∧ (g.getD j default).name = r.name)) →
    insertRec g r = g.set i r := by
  intro g
  induction g with
  | nil => intro i hi; simp at hi
  | cons x xs ih =>
      intro i hi hmatch hbefore
      cases i with
      | zero =>
          simp only [List.getD_cons_zero] at hmatch
          simp [insertRec, hmatch.1, hmatch.2]
      | succ j =>
          have hx : ¬(x.version = r.version ∧ x.name = r.name) := by
            have := hbefore 0 (Nat.succ_pos j)
            simpa using this
          simp only [insertRec, if_neg hx, List.set]
          have := ih j (by simpa using hi) (by simpa using hmatch)
            (fun k hk => by simpa using hbefore (k + 1) (by omega))
          rw [this]

theorem insertRec_eq_append (r : Rec) : ∀ g : List Rec,
    (∀ j, j < g.length → ¬((g.getD j default).version = r.version ∧ (g.getD j default).name = r.name)) →
    insertRec g r = g ++ [r] := by
  intro g
  induction g with
  | nil => intro hno; rfl
  | cons x xs ih =>
      intro hno
      have hx : ¬(x.version = r.version ∧ x.name = r.name) := by
        have := hno 0 (by simp)
        simpa using this
      simp only [insertRec, if_neg hx, List.cons_append]
      rw [ih (fun k hk => by simpa using hno (k + 1) (by simpa using hk))]

theorem selectLast_none (st : String) : ∀ g : List Rec,
    selectLastByStatus g st = none → ∀ j, j < g.length → (g.getD j default).status ≠ st := by
  intro g
  induction g with
  | nil => intro hsel j hj; simp at hj
  | cons x xs ih =>
      intro hsel j hj
      unfold selectLastByStatus at hsel
      cases hx : selectLastByStatus xs st with
      | some y => rw [hx] at hsel; cases hsel
      | none =>
          rw [hx] at hsel
          by_cases hs : x.status = st
          · rw [if_pos hs] at hsel; cases hsel
          · cases j with
            | zero => simpa using hs
            | succ k => simpa using ih hx k (by simpa using hj)

theorem selectLast_none_of (st : String) : ∀ g : List Rec,
    (∀ j, j < g.length → (g.getD j default).status ≠ st) →
    selectLastByStatus g st = none := by
  intro g
  induction g with
  | nil => intro hall; rfl
  | cons x xs ih =>
      intro hall
      have hx : x.status ≠ st := by simpa using hall 0 (by simp)
      have hxs := ih (fun k hk => by simpa using hall (k + 1) (by simpa using hk))
      simp only [selectLastByStatus, hxs, if_neg hx]

theorem selectLast_spec (st : String) : ∀ g : List Rec, ∀ r : Rec,
    selectLastByStatus g st = some r →
    ∃ i, i < g.length ∧ g.getD i default = r ∧ r.status = st ∧
      ∀ j, i < j → j < g.length → (g.getD j default).status ≠ st := by
  intro g
  induction g with
  | nil => intro r hsel; cases hsel
  | cons x xs ih =>
      intro r hsel
      unfold selectLastByStatus at hsel
      cases hx : selectLastByStatus xs st with
      | some y =>
          rw [hx] at hsel
          injection hsel with hy
          obtain ⟨i, hi, hget, hst, hafter⟩ := ih y hx
          subst hy
          refine ⟨i + 1, by simpa using hi, by simpa using hget, hst, ?_⟩
          intro j hj hjl
          cases j with
          | zero => omega
          | succ k => simpa using hafter k (by omega) (by simpa using hjl)
      | none =>
          rw [hx] at hsel
          by_cases hs : x.status = st
          · rw [if_pos hs] at hsel
            injection hsel with hy
            subst hy
            refine ⟨0, by simp, by simp, hs, ?_⟩
            intro j hj hjl
            cases j with
            | zero => omega
            | succ k => simpa using selectLast_none st xs hx k (by simpa using hjl)
          · rw [if_neg hs] at hsel; cases hsel

theorem selectLast_getLast (st : String) : ∀ g : List Rec, g.length ≠ 0 →
    (g.getD (g.length - 1) default).status = st →
    selectLastByStatus g st = some (g.getD (g.length - 1) default) := by
  intro g
  induction g with
  | nil => intro hne; simp at hne
  | cons x xs ih =>
      intro hne hst
      by_cases hxs : xs.length = 0
      · have hxe : xs = [] := List.length_eq_zero.mp hxs
        subst hxe
        have hx : x.status = st := hst
        simp [selectLastByStatus, hx]
      · have hlen : (x :: xs).length - 1 = (xs.length - 1) + 1 := by
          simp only [List.length_cons]; omega
        rw [hlen] at hst ⊢
        simp only [List.getD_cons_succ] at hst ⊢
        have := ih hxs hst
        simp [selectLastByStatus, this]

theorem selectLast_append (st : String) (xs ys : List Rec) :
    selectLastByStatus (xs ++ ys) st =
      match selectLastByStatus ys st with
      | some x => some x
      | none => selectLastByStatus xs st := by
  induction xs with
  | nil =>
      simp only [List.nil_append]
      cases selectLastByStatus ys st <;> rfl
  | cons x rest ih =>
      simp only [List.cons_append, selectLastByStatus, List.append_eq]
      rw [ih]
      cases selectLastByStatus ys st <;> cases selectLastByStatus rest st <;> simp

theorem executeMigration_hist (env : Env) (h : List Rec) (m : Migration) (sql : String)
    (g : Option GoAction) (ps ss es : String) :
    (executeMigration env h m sql g ps ss es).hist =
      insertRec (insertRec h ⟨m.version, m.name, ps⟩)
        ⟨m.version, m.name, if (execAction env sql g).1 then ss else es⟩ := by
  simp only [executeMigration]
  split <;> simp_all

theorem drop_eq_getD_cons (ms : List Migration) (k : Nat) (hk : k < ms.length) :
    ms.drop k = ms.getD k default :: ms.drop (k + 1) := by
  rw [List.getD_eq_getElem ms default hk]
  exact List.drop_eq_getElem_cons hk

theorem upMigration_canonical (env : Env) (ms : List Migration) (g : List Rec) (k : Nat)
    (hreg : canonicalRegistry ms) (hg : canonicalHist ms g)
    (hk : k ≤ g.length) (hklt : k < ms.length)
    (hok : (execAction env (ms.getD k default).up (ms.getD k default).upGo).1 = true) :
    (upMigration env g (ms.getD k default)).hist =
      if k < g.length
      then g.set k ⟨(k : Int) + 1, (ms.getD k default).name, StatusSuccess⟩
      else g ++ [⟨(k : Int) + 1, (ms.getD k default).name, StatusSuccess⟩] := by
  have hver : (ms.getD k default).version = (k : Int) + 1 := hreg k hklt
  have hhist := executeMigration_hist env g (ms.getD k default) (ms.getD k default).up
    (ms.getD k default).upGo StatusProcess StatusSuccess StatusError
  rw [hok, if_pos rfl] at hhist
  by_cases hlt : k < g.length
  · have hmatch1 : (g.getD k default).version = (ms.getD k default).version ∧
        (g.getD k default).name = (ms.getD k default).name := by
      obtain ⟨hle, hc⟩ := hg
      obtain ⟨hv, hn⟩ := hc k hlt
      exact ⟨by rw [hv, hver], hn⟩
    have hbefore : ∀ j, j < k →
        ¬((g.getD j default).version = (ms.getD k default).version ∧
          (g.getD j default).name = (ms.getD k default).name) := by
      intro j hj hc
      obtain ⟨hle, hcan⟩ := hg
      obtain ⟨hv, _⟩ := hcan j (by omega)
      rw [hv, hver] at hc
      omega
    have h1 : insertRec g ⟨(ms.getD k default).version, (ms.getD k default).name, StatusProcess⟩ =
        g.set k ⟨(ms.getD k default).version, (ms.getD k default).name, StatusProcess⟩ :=
      insertRec_eq_set _ g k hlt hmatch1 hbefore
    have h2 : insertRec
        (g.set k ⟨(ms.getD k default).version, (ms.getD k default).name, StatusProcess⟩)
        ⟨(ms.getD k default).version, (ms.getD k default).name, StatusSuccess⟩ =
        (g.set k ⟨(ms.getD k default).version, (ms.getD k default).name, StatusProcess⟩).set k
          ⟨(ms.getD k default).version, (ms.getD k default).name, StatusSuccess⟩ := by
      refine insertRec_eq_set _ _ k (by simpa using hlt) ?_ ?_
      · rw [getD_set_self g k _ hlt]
        exact ⟨rfl, rfl⟩
      · intro j hj hc
        rw [getD_set_ne g k j _ (by omega)] at hc
        exact hbefore j hj hc
    rw [upMigration, hhist, h1, h2, List.set_set, if_pos hlt, hver]
  · have hke : k = g.length := by omega
    subst hke
    have hnone : ∀ j, j < g.length →
        ¬((g.getD j default).version = (ms.getD g.length default).version ∧
          (g.getD j default).name = (ms.getD g.length default).name) := by
      intro j hj hc
      obtain ⟨hle, hcan⟩ := hg
      obtain ⟨hv, _⟩ := hcan j hj
      rw [hv, hver] at hc
      omega
    have h1 : insertRec g
        ⟨(ms.getD g.length default).version, (ms.getD g.length default).name, StatusProcess⟩ =
        g ++ [⟨(ms.getD g.length default).version, (ms.getD g.length default).name, StatusProcess⟩] :=
      insertRec_eq_append _ g hnone
    have h2 : insertRec
        (g ++ [⟨(ms.getD g.length default).version, (ms.getD g.length default).name, StatusProcess⟩])
        ⟨(ms.getD g.length default).version, (ms.getD g.length default).name, StatusSuccess⟩ =
        g ++ [⟨(ms.getD g.length default).version, (ms.getD g.length default).name, StatusSuccess⟩] := by
      have hset := insertRec_eq_set
        ⟨(ms.getD g.length default).version, (ms.getD g.length default).name, StatusSuccess⟩
        (g ++ [⟨(ms.getD g.length default).version, (ms.getD g.length default).name, StatusProcess⟩])
        g.length (by simp) ?_ ?_
      · rw [hset, set_append_last]
      · rw [getD_append_last]
        exact ⟨rfl, rfl⟩
      · intro j hj hc
        rw [getD_append_left _ _ j hj] at hc
        exact hnone j hj hc
    rw [upMigration, hhist, h1, h2, if_neg hlt, hver]

theorem upFrom_canonical (env : Env) (ms : List Migration)
    (hreg : canonicalRegistry ms) (hok : allUpOk env ms) :
    ∀ n k g, ms.length - k = n → canonicalHist ms g → k ≤ g.length →
      (upFrom env g (ms.drop k)).res = .ok () ∧
      canonicalHist ms (upFrom env g (ms.drop k)).hist ∧
      (upFrom env g (ms.drop k)).hist.length = max g.length ms.length ∧
      (∀ j, j < k → j < g.length →
        (upFrom env g (ms.drop k)).hist.getD j default = g.getD j default) ∧
      (∀ j, k ≤ j → j < ms.length →
        (upFrom env g (ms.drop k)).hist.getD j default =
          ⟨(j : Int) + 1, (ms.getD j default).name, StatusSuccess⟩) := by
  intro n
  induction n with
  | zero =>
      intro k g hn hg hkg
      have hge : ms.length ≤ k := by omega
      have hlen : g.length = ms.length := by
        have := hg.1
        omega
      rw [List.drop_eq_nil_of_le hge]
      refine ⟨rfl, hg, ?_, fun j hj hjg => rfl, fun j hkj hj => by omega⟩
      show g.length = max g.length ms.length
      rw [hlen, Nat.max_self]
  | succ n ih =>
      intro k g hn hg hkg
      have hklt : k < ms.length := by omega
      have hmem : ms.getD k default ∈ ms := by
        rw [List.getD_eq_getElem ms default hklt]
        exact List.getElem_mem ..
      have hstep := upMigration_canonical env ms g k hreg hg hkg hklt (hok _ hmem)
      have hred : upFrom env g (ms.drop k) =
          ⟨(upFrom env (upMigration env g (ms.getD k default)).hist (ms.drop (k + 1))).res,
           (upFrom env (upMigration env g (ms.getD k default)).hist (ms.drop (k + 1))).hist,
           (upMigration env g (ms.getD k default)).tr ++
             (upFrom env (upMigration env g (ms.getD k default)).hist (ms.drop (k + 1))).tr⟩ := by
        rw [drop_eq_getD_cons ms k hklt]
        simp only [upFrom]
        rw [upMigration_res]
      set srec : Rec := ⟨(k : Int) + 1, (ms.getD k default).name, StatusSuccess⟩ with hsrec
      have hg2can : canonicalHist ms (upMigration env g (ms.getD k default)).hist := by
        rw [hstep]
        by_cases hlt : k < g.length
        · rw [if_pos hlt]
          refine ⟨by rw [List.length_set]; exact hg.1, ?_⟩
          intro j hj
          rw [List.length_set] at hj
          by_cases hjk : j = k
          · subst hjk
            rw [getD_set_self g j _ hlt]
            exact ⟨rfl, rfl⟩
          · rw [getD_set_ne g k j _ hjk]
            exact hg.2 j hj
        · rw [if_neg hlt]
          have hke : k = g.length := by omega
          refine ⟨by simp; omega, ?_⟩
          intro j hj
          simp only [List.length_append, List.length_cons, List.length_nil] at hj
          by_cases hjk : j = g.length
          · subst hjk
            rw [getD_append_last]
            rw [← hke]
            exact ⟨rfl, rfl⟩
          · rw [getD_append_left _ _ j (by omega)]
            exact hg.2 j (by omega)
      have hg2len : (upMigration env g (ms.getD k default)).hist.length =
          if k < g.length then g.length else g.length + 1 := by
        rw [hstep]
        by_cases hlt : k < g.length
        · rw [if_pos hlt, if_pos hlt, List.length_set]
        · rw [if_neg hlt, if_neg hlt]
          simp
      have hk1 : k + 1 ≤ (upMigration env g (ms.getD k default)).hist.length := by
        rw [hg2len]
        by_cases hlt : k < g.length
        · rw [if_pos hlt]; omega
        · rw [if_neg hlt]; omega
      have hg2at : ∀ j, j < k → j < g.length →
          (upMigration env g (ms.getD k default)).hist.getD j default = g.getD j default := by
        intro j hj hjg
        rw [hstep]
        by_cases hlt : k < g.length
        · rw [if_pos hlt, getD_set_ne g k j _ (by omega)]
        · rw [if_neg hlt, getD_append_left _ _ j hjg]
      have hg2k : (upMigration env g (ms.getD k default)).hist.getD k default = srec := by
        rw [hstep]
        by_cases hlt : k < g.length
        · rw [if_pos hlt, getD_set_self g k _ hlt]
        · rw [if_neg hlt]
          have hke : k = g.length := by omega
          rw [hke, getD_append_last]
      have hjlt2 : ∀ j, j < g.length → j < (upMigration env g (ms.getD k default)).hist.length := by
        intro j hjg
        rw [hg2len]
        by_cases hlt : k < g.length
        · rw [if_pos hlt]; omega
        · rw [if_neg hlt]; omega
      obtain ⟨ihres, ihcan, ihlen, ihpre, ihsucc⟩ :=
        ih (k + 1) (upMigration env g (ms.getD k default)).hist (by omega) hg2can hk1
      rw [hred]
      dsimp only
      refine ⟨ihres, ihcan, ?_, ?_, ?_⟩
      · rw [ihlen, hg2len]
        by_cases hlt : k < g.length
        · rw [if_pos hlt]
        · rw [if_neg hlt]
          have h1 : g.length + 1 ≤ ms.length := by omega
          rw [Nat.max_eq_right h1, Nat.max_eq_right (by omega)]
      · intro j hj hjg
        rw [ihpre j (by omega) (hjlt2 j hjg)]
        exact hg2at j hj hjg
      · intro j hkj hj
        by_cases hjk : j = k
        · subst hjk
          rw [ihpre j (by omega) (by omega)]
          exact hg2k
        · exact ihsucc j (by omega) hj

/-- Claim C8: starting from any engine-shaped history against a
canonical registry in an environment where every up action succeeds, Up
completes successfully and leaves the last successful version equal to
the registry size; and from any state whose last successful version
equals the registry size — in particular immediately after such an Up —
re-running Up is a strict no-op: it returns ok, executes no migration,
records no status transition, and leaves the history unchanged. -/
theorem up_idempotent_after_successful_up (env : Env) (ms : List Migration) (h : List Rec)
    (hl : env.lockOk = true) (hreg : canonicalRegistry ms) (hok : allUpOk env ms)
    (hh : canonicalHist ms h) :
    (Migrator.Up env ms h).res = .ok () ∧
    Migrator.DBVersion (Migrator.Up env ms h).hist = (ms.length : Int) ∧
    (∀ h2, Migrator.DBVersion h2 = (ms.length : Int) →
      Migrator.Up env ms h2 = ⟨.ok (), h2, [.lock, .unlock]⟩) := by
  have hwrap : Migrator.Up env ms h =
      ⟨(upBody env ms h).res, (upBody env ms h).hist,
        .lock :: (upBody env ms h).tr ++ [.unlock]⟩ := by
    simp [Migrator.Up, hl]
  -- the body runs the loop from some k0 with k0 <= h.length, and below
  -- k0 the final history keeps records of h
  have hbody : ∃ k0, k0 ≤ h.length ∧
      upBody env ms h = upFrom env h (ms.drop k0) ∧
      (k0 = ms.length → ms.length ≠ 0 →
        (h.getD (ms.length - 1) default).status = StatusSuccess ∧
        (h.getD (ms.length - 1) default).version = (ms.length : Int)) := by
    cases hsel : selectLastByStatus h StatusSuccess with
    | none =>
        refine ⟨0, Nat.zero_le _, ?_, ?_⟩
        · simp [upBody, hsel]
        · intro hk0 hne
          have := hh.1
          omega
    | some r =>
        obtain ⟨i, hi, hget, hst, hafter⟩ := selectLast_spec StatusSuccess h r hsel
        have hver : r.version = (i : Int) + 1 := by
          rw [← hget]
          exact (hh.2 i hi).1
        have hle : h.length ≤ ms.length := hh.1
        have hg1 : ¬ r.version - 1 > (ms.length : Int) := by rw [hver]; omega
        have hg2 : ¬ r.version < 0 := by rw [hver]; omega
        have htn : r.version.toNat = i + 1 := by rw [hver]; omega
        refine ⟨i + 1, by omega, ?_, ?_⟩
        · simp only [upBody, hsel, if_neg hg1, if_neg hg2, htn]
        · intro hk0 hne
          have hieq : i = ms.length - 1 := by omega
          constructor
          · rw [← hieq, hget]; exact hst
          · rw [← hieq, hget, hver]; omega
  obtain ⟨k0, hk0le, hbodyeq, hk0top⟩ := hbody
  obtain ⟨hres, hcan, hlen, hpre, hsucc⟩ := upFrom_canonical env ms hreg hok
    (ms.length - k0) k0 h rfl hh hk0le
  have hlenF : (upFrom env h (ms.drop k0)).hist.length = ms.length := by
    rw [hlen, Nat.max_eq_right hh.1]
  refine ⟨?_, ?_, ?_⟩
  · rw [hwrap]
    show (upBody env ms h).res = .ok ()
    rw [hbodyeq]
    exact hres
  · rw [hwrap]
    show Migrator.DBVersion (upBody env ms h).hist = (ms.length : Int)
    rw [hbodyeq]
    by_cases hne : ms.length = 0
    · have hFnil : (upFrom env h (ms.drop k0)).hist = [] := by
        rw [← List.length_eq_zero, hlenF, hne]
      rw [Migrator.DBVersion, hFnil]
      simp [selectLastByStatus, hne]
    · have hlast : ((upFrom env h (ms.drop k0)).hist.getD (ms.length - 1) default).status
          = StatusSuccess ∧
          ((upFrom env h (ms.drop k0)).hist.getD (ms.length - 1) default).version
          = (ms.length : Int) := by
        by_cases hk0N : k0 = ms.length
        · obtain ⟨hs1, hs2⟩ := hk0top hk0N hne
          have hhl : h.length = ms.length := by omega
          have hpr := hpre (ms.length - 1) (by omega) (by omega)
          rw [hpr]
          exact ⟨hs1, hs2⟩
        · have hk0lt : k0 ≤ ms.length - 1 := by
            have := hh.1
            omega
          have hsc := hsucc (ms.length - 1) hk0lt (by omega)
          rw [hsc]
          refine ⟨rfl, ?_⟩
          show ((ms.length - 1 : Nat) : Int) + 1 = (ms.length : Int)
          omega
      have hsel2 := selectLast_getLast StatusSuccess (upFrom env h (ms.drop k0)).hist
        (by omega) (by rw [hlenF]; exact hlast.1)
      rw [Migrator.DBVersion, hsel2]
      rw [hlenF]
      exact hlast.2
  · intro h2 hdb
    cases hsel2 : selectLastByStatus h2 StatusSuccess with
    | none =>
        simp only [Migrator.DBVersion, hsel2] at hdb
        have hms0 : ms.length = 0 := by omega
        have hms : ms = [] := List.length_eq_zero.mp hms0
        subst hms
        simp [Migrator.Up, hl, upBody, hsel2, upFrom]
    | some r2 =>
        simp only [Migrator.DBVersion, hsel2] at hdb
        have hg1 : ¬ r2.version - 1 > (ms.length : Int) := by omega
        have hg2 : ¬ r2.version < 0 := by omega
        have htn : r2.version.toNat = ms.length := by omega
        have hdrop : ms.drop r2.version.toNat = [] := by
          rw [htn]
          exact List.drop_length ms
        simp [Migrator.Up, hl, upBody, hsel2, if_neg hg1, if_neg hg2, hdrop, upFrom]

/-- Claim C8 witness: after the one-migration registry has been fully
applied, re-running Up only locks and unlocks. -/
theorem up_idempotent_after_successful_up_witness :
    Migrator.Up envAllOk msOne histOne = ⟨.ok (), histOne, [.lock, .unlock]⟩ := by
  have h := up_idempotent_after_successful_up envAllOk msOne [] rfl
    (by unfold canonicalRegistry; decide)
    (by unfold allUpOk; decide)
    (by unfold canonicalHist; decide)
  exact h.2.2 histOne (by decide)

/-- Claim C4, amended: for a canonical registry and an engine-shaped
history whose last successful record is version V, and in which the
record at version V - 1 (when V is greater than 1) also has status
Success, Redo is exactly Down — which rewrites the record at index
V - 1, the rolled-back version V — followed by the single-migration up
of the registry entry at index V - 1, whose version is exactly V. -/
theorem redo_reapplies_rolled_back_version (env : Env) (ms : List Migration) (h : List Rec)
    (hl : env.lockOk = true) (hreg : canonicalRegistry ms) (hh : canonicalHist ms h)
    (V : Nat) (hV1 : 1 ≤ V) (r : Rec)
    (hsel : selectLastByStatus h StatusSuccess = some r) (hv : r.version = (V : Int))
    (hprev : V = 1 ∨ (h.getD (V - 2) default).status = StatusSuccess) :
    Migrator.Redo env ms h =
      ⟨.ok (),
        (upMigration env (Migrator.Down env ms h).hist (ms.getD (V - 1) default)).hist,
        (Migrator.Down env ms h).tr ++
          (upMigration env (Migrator.Down env ms h).hist (ms.getD (V - 1) default)).tr⟩ ∧
    (ms.getD (V - 1) default).version = (V : Int) ∧
    (Migrator.Down env ms h).hist =
      h.set (V - 1) ⟨(ms.getD (V - 1) default).version, (ms.getD (V - 1) default).name,
        if (execAction env (ms.getD (V - 1) default).down (ms.getD (V - 1) default).downGo).1
        then StatusCancel else StatusError⟩ := by
  obtain ⟨i, hi, hget, hst, hafter⟩ := selectLast_spec StatusSuccess h r hsel
  have hle : h.length ≤ ms.length := hh.1
  have hveri : r.version = (i : Int) + 1 := by
    rw [← hget]
    exact (hh.2 i hi).1
  have hiV : i = V - 1 := by omega
  have hVh : V ≤ h.length := by omega
  have hV1N : V - 1 < ms.length := by omega
  have hV1h : V - 1 < h.length := by omega
  have tgtver : (ms.getD (V - 1) default).version = (V : Int) := by
    rw [hreg (V - 1) hV1N]
    omega
  -- the terminal record written by the down transition
  set tRec : Rec := ⟨(ms.getD (V - 1) default).version, (ms.getD (V - 1) default).name,
      if (execAction env (ms.getD (V - 1) default).down (ms.getD (V - 1) default).downGo).1
      then StatusCancel else StatusError⟩ with htRec
  have htne : tRec.status ≠ StatusSuccess := by
    rw [htRec]
    by_cases hb : (execAction env (ms.getD (V - 1) default).down
        (ms.getD (V - 1) default).downGo).1 = true
    · rw [hb]; simp [StatusCancel, StatusSuccess]
    · rw [Bool.not_eq_true] at hb
      rw [hb]; simp [StatusError, StatusSuccess]
  -- Down reduces to the single down transition at index V - 1
  have hdgoal : downBody env ms h =
      ⟨.ok (), (downMigration env h (ms.getD (V - 1) default)).hist,
        (downMigration env h (ms.getD (V - 1) default)).tr⟩ := by
    simp only [downBody, hsel]
    have hng : ¬ r.version > (ms.length : Int) := by rw [hv]; omega
    rw [if_neg hng]
    have hc : 0 ≤ r.version - 1 ∧ (r.version - 1).toNat < ms.length := by
      rw [hv]
      exact ⟨by omega, by omega⟩
    rw [dif_pos hc]
    have hgeteq : ms.get ⟨(r.version - 1).toNat, hc.2⟩ = ms.getD (V - 1) default := by
      have htn : (r.version - 1).toNat = V - 1 := by rw [hv]; omega
      rw [List.getD_eq_get ms default hV1N]
      congr 1
      exact Fin.ext htn
    rw [hgeteq, downMigration_res]
  have hdown : Migrator.Down env ms h =
      ⟨.ok (), (downMigration env h (ms.getD (V - 1) default)).hist,
        .lock :: (downMigration env h (ms.getD (V - 1) default)).tr ++ [.unlock]⟩ := by
    simp only [Migrator.Down, hl, if_true, hdgoal]
  -- the down transition updates exactly the record at index V - 1
  have hbefore : ∀ j, j < V - 1 →
      ¬((h.getD j default).version = (ms.getD (V - 1) default).version ∧
        (h.getD j default).name = (ms.getD (V - 1) default).name) := by
    intro j hj hcon
    have := (hh.2 j (by omega)).1
    rw [this, tgtver] at hcon
    omega
  have hmatch : (h.getD (V - 1) default).version = (ms.getD (V - 1) default).version ∧
      (h.getD (V - 1) default).name = (ms.getD (V - 1) default).name := by
    obtain ⟨hvj, hnj⟩ := hh.2 (V - 1) hV1h
    refine ⟨?_, hnj⟩
    rw [hvj, tgtver]
    omega
  have hDH : (downMigration env h (ms.getD (V - 1) default)).hist = h.set (V - 1) tRec := by
    rw [downMigration, executeMigration_hist]
    have h1 : insertRec h ⟨(ms.getD (V - 1) default).version,
        (ms.getD (V - 1) default).name, StatusCancellation⟩ =
        h.set (V - 1) ⟨(ms.getD (V - 1) default).version,
          (ms.getD (V - 1) default).name, StatusCancellation⟩ :=
      insertRec_eq_set _ h (V - 1) hV1h hmatch hbefore
    rw [h1]
    have h2 := insertRec_eq_set tRec
      (h.set (V - 1) ⟨(ms.getD (V - 1) default).version,
        (ms.getD (V - 1) default).name, StatusCancellation⟩)
      (V - 1) (by rw [List.length_set]; exact hV1h) ?_ ?_
    · rw [htRec] at h2
      rw [h2, List.set_set]
    · rw [getD_set_self h (V - 1) _ hV1h]
      exact ⟨rfl, rfl⟩
    · intro j hj hcon
      rw [getD_set_ne h (V - 1) j _ (by omega)] at hcon
      exact hbefore j hj hcon
  have hdres : (Migrator.Down env ms h).res = .ok () := by rw [hdown]
  have hdhist : (Migrator.Down env ms h).hist = h.set (V - 1) tRec := by rw [hdown, hDH]
  -- after the down, the last successful record is the one before V
  have hselDH : selectLastByStatus (Migrator.Down env ms h).hist StatusSuccess =
      selectLastByStatus (h.take (V - 1)) StatusSuccess := by
    rw [hdhist, set_decomp h (V - 1) tRec hV1h, selectLast_append]
    have hVm : V - 1 + 1 = V := by omega
    have hdropnone : selectLastByStatus (tRec :: h.drop (V - 1 + 1)) StatusSuccess = none := by
      simp only [selectLastByStatus]
      rw [selectLast_none_of StatusSuccess (h.drop (V - 1 + 1)) ?_]
      · rw [if_neg htne]
      · intro j hj
        rw [List.length_drop] at hj
        rw [getD_drop]
        exact hafter (V - 1 + 1 + j) (by omega) (by omega)
    rw [hdropnone]
  refine ⟨?_, tgtver, hdhist⟩
  simp only [Migrator.Redo]
  rw [hdres]
  dsimp only
  by_cases hV1e : V = 1
  · have hsel1 : selectLastByStatus (Migrator.Down env ms h).hist StatusSuccess = none := by
      rw [hselDH, hV1e]
      rfl
    rw [hsel1]
    dsimp only
    simp only [redoUp]
    have hc0 : (0 : Int) ≤ 0 ∧ (0 : Int).toNat < ms.length := ⟨le_refl _, by omega⟩
    rw [dif_pos hc0]
    have hget0 : ms.get ⟨(0 : Int).toNat, hc0.2⟩ = ms.getD (V - 1) default := by
      rw [List.getD_eq_get ms default hV1N]
      congr 1
      apply Fin.ext
      show (0 : Int).toNat = V - 1
      omega
    rw [hget0, upMigration_res]
  · have hV2 : 2 ≤ V := by omega
    have hstp : (h.getD (V - 2) default).status = StatusSuccess := by
      rcases hprev with hpe | hps
      · exact absurd hpe hV1e
      · exact hps
    have hV2h : V - 2 < h.length := by omega
    have hr2ver : (h.getD (V - 2) default).version = ((V - 2 : Nat) : Int) + 1 :=
      (hh.2 (V - 2) hV2h).1
    have htlen : (h.take (V - 1)).length = V - 1 := by
      rw [List.length_take]
      omega
    have hsel2 : selectLastByStatus (Migrator.Down env ms h).hist StatusSuccess =
        some (h.getD (V - 2) default) := by
      rw [hselDH]
      have hgl := selectLast_getLast StatusSuccess (h.take (V - 1)) (by omega)
      rw [htlen] at hgl
      have htk : (h.take (V - 1)).getD (V - 1 - 1) default = h.getD (V - 2) default := by
        have : V - 1 - 1 = V - 2 := by omega
        rw [this, getD_take h (V - 1) (V - 2) (by omega)]
      rw [htk] at hgl
      exact hgl hstp
    rw [hsel2]
    dsimp only
    have hng2 : ¬ (h.getD (V - 2) default).version - 1 > (ms.length : Int) := by
      rw [hr2ver]
      omega
    rw [if_neg hng2]
    simp only [redoUp]
    have hc2 : 0 ≤ (h.getD (V - 2) default).version ∧
        (h.getD (V - 2) default).version.toNat < ms.length := by
      rw [hr2ver]
      exact ⟨by omega, by omega⟩
    rw [dif_pos hc2]
    have hget2 : ms.get ⟨(h.getD (V - 2) default).version.toNat, hc2.2⟩ =
        ms.getD (V - 1) default := by
      rw [List.getD_eq_get ms default hV1N]
      congr 1
      apply Fin.ext
      show (h.getD (V - 2) default).version.toNat = V - 1
      rw [hr2ver]
      omega
    rw [hget2, upMigration_res]

/-- Claim C4 witness: on a one-migration registry with version 1
successfully applied, Redo rolls back version 1 and re-applies exactly
version 1. -/
theorem redo_reapplies_rolled_back_version_witness :
    Migrator.Redo envAllOk msOne histOne =
      ⟨.ok (), [⟨1, "a", StatusSuccess⟩],
        [.lock, .insert ⟨1, "a", StatusCancellation⟩, .execSql "d",
         .insert ⟨1, "a", StatusCancel⟩, .unlock, .insert ⟨1, "a", StatusProcess⟩,
         .execSql "u", .insert ⟨1, "a", StatusSuccess⟩]⟩ ∧
    (msOne.getD 0 default).version = 1 := by
  have hw := redo_reapplies_rolled_back_version envAllOk msOne histOne rfl (by unfold canonicalRegistry; decide)
    (by unfold canonicalHist; decide) 1 (by decide) ⟨1, "a", StatusSuccess⟩ rfl (by decide)
    (Or.inl rfl)
  exact ⟨hw.1.trans rfl, hw.2.1⟩

/-- Claim C4, counterexample: with registry versions 1..3 and a history
in which versions 1 and 3 succeeded but version 2 previously failed, the
last successful migration is version 3; Redo rolls back version 3 but
then re-applies version 2 — not the version just rolled back — because
it reads the post-Down last successful version (1) and indexes the
registry with it.  The final history shows version 3 left at Cancel and
version 2 freshly re-executed to Success. -/
theorem redo_reapplies_wrong_version_cex :
    selectLastByStatus histGap StatusSuccess = some ⟨3, "c", StatusSuccess⟩ ∧
    Migrator.Redo envAllOk msThree histGap =
      ⟨.ok (), [⟨1, "a", StatusSuccess⟩, ⟨2, "b", StatusSuccess⟩, ⟨3, "c", StatusCancel⟩],
        [.lock, .insert ⟨3, "c", StatusCancellation⟩, .execSql "dc",
         .insert ⟨3, "c", StatusCancel⟩, .unlock, .insert ⟨2, "b", StatusProcess⟩,
         .execSql "ub", .insert ⟨2, "b", StatusSuccess⟩]⟩ :=
  ⟨rfl, rfl⟩
